import Mathlib

/-!
Verification development for the distributed rotation-key generation protocol
of `dbfv/rotkey_gen.go` (collective rotation-key generation for a BFV-style
RLWE scheme).

The polynomial-ring backend (package `ring`) and the scheme-parameter carrier
(package `bfv`) are external collaborators of the file under verification;
their operations are modelled from the specification, which describes them as
modular RNS arithmetic per prime level.  An RNS ring element is modelled as a
function from (prime level, coefficient index) to the coefficient value; Go
slices of ring elements stay Lean lists.  All code of `rotkey_gen.go` itself
(the Galois-element tables, `genswitchkey`, the share-generation entry points,
`aggregate`, and `Finalize`) is translated statement by statement.
-/

namespace RotKeyGen

/-- Modelled from the spec: an RNS-encoded ring element (`ring.Poly`), viewed
as its coefficient table: level `l` (one per prime of the basis) and
coefficient index `w` of the degree-`N` polynomial give a `Nat` value. -/
abbrev Poly := Nat → Nat → Nat

/-- The all-zero ring element, used as the default of list lookups. -/
def zeroPoly : Poly := fun _ _ => 0

/-- Modelled from the spec: `ring.CRed`, conditional modular reduction of a
value below `2q` into `[0, q)`. -/
def CRed (a q : Nat) : Nat := if q ≤ a then a - q else a

/-- Modelled from the spec: `Context.AddNoMod`, coefficient-wise addition with
no modular reduction (deferred-reduction accumulation). -/
def AddNoMod (p q : Poly) : Poly := fun l w => p l w + q l w

/-- Modelled from the spec: `Context.Reduce`, full modular reduction of every
coefficient by the prime of its level. -/
def Reduce (mods : Nat → Nat) (p : Poly) : Poly := fun l w => p l w % mods l

/-- Modelled from the spec: `Context.Sub`, coefficient-wise modular
subtraction. -/
def Sub (mods : Nat → Nat) (p q : Poly) : Poly :=
  fun l w => (p l w % mods l + (mods l - q l w % mods l)) % mods l

/-- Modelled from the spec: `Context.MulScalar`, coefficient-wise modular
multiplication by a scalar. -/
def MulScalar (mods : Nat → Nat) (s : Nat) (p : Poly) : Poly :=
  fun l w => p l w * s % mods l

/-- Modelled from the spec: `Context.MForm`, conversion into the
fast-multiplication (Montgomery) representation; `r` is the Montgomery
constant. -/
def MForm (r : Nat) (mods : Nat → Nat) (p : Poly) : Poly :=
  fun l w => p l w * r % mods l

/-- Modelled from the spec: `Context.InvMForm`, conversion out of the
fast-multiplication representation; `rinv` is the modular inverse of the
Montgomery constant. -/
def InvMForm (rinv : Nat) (mods : Nat → Nat) (p : Poly) : Poly :=
  fun l w => p l w * rinv % mods l

/-- Modelled from the spec: `Context.MulCoeffsMontgomeryAndSub`, the combined
multiply-and-subtract in fast representation: `c := c - a*b*rinv (mod q)`
coefficient-wise. -/
def MulCoeffsMontgomeryAndSub (rinv : Nat) (mods : Nat → Nat) (a b c : Poly) : Poly :=
  fun l w => (c l w % mods l + (mods l - a l w * b l w * rinv % mods l)) % mods l

/-- Modelled from the spec: `ring.PermuteNTT`, the NTT-domain Galois
automorphism indexed by the Galois element `galEl`; modelled as the index
permutation `w ↦ galEl * w mod N` on every level. -/
def PermuteNTT (n : Nat) (p : Poly) (galEl : Nat) : Poly :=
  fun l w => p l (galEl * w % n)

/-- Modelled from the spec: `ring.ModExp`, modular exponentiation
(the spec derives the generator inverse as `gen^(2N-1) mod 2N`). -/
def ModExp (a e m : Nat) : Nat := a ^ e % m

/-- Scheme-parameter carrier (`bfv.BfvContext`) as consumed by
`rotkey_gen.go`: ring degree `N`, the length of the `ContextQ` modulus chain,
the moduli of the extended key-switching basis (`ContextKeys().Modulus`,
levels `0..lenQ-1` are the chain primes, the following levels the
key-switching auxiliary primes), the list of key-switching auxiliary primes,
and the decomposition parameters `alpha` (primes per digit) and `beta`
(digit count). -/
structure BfvContext where
  N : Nat
  lenQ : Nat
  keysMod : Nat → Nat
  pPrimes : List Nat
  alpha : Nat
  beta : Nat

/-- The fixed generator `rkg.gen = 5` of `NewRKG`. -/
def gen : Nat := 5

/-- The derived inverse generator `rkg.genInv = ring.ModExp(gen, 2N-1, 2N)`
of `NewRKG`. -/
def genInv (N : Nat) : Nat := ModExp gen (2 * N - 1) (2 * N)

/-- The iterative column-left Galois table of `NewRKG`:
`[0] = 1`, `[i] = ([i-1] * gen) &&& (2N - 1)`. -/
def galElRotColLeft (N : Nat) : Nat → Nat
  | 0 => 1
  | i + 1 => galElRotColLeft N i * gen &&& (2 * N - 1)

/-- The iterative column-right Galois table of `NewRKG`:
`[0] = 1`, `[i] = ([i-1] * genInv) &&& (2N - 1)`. -/
def galElRotColRight (N : Nat) : Nat → Nat
  | 0 => 1
  | i + 1 => galElRotColRight N i * genInv N &&& (2 * N - 1)

/-- The row (conjugation) Galois element `rkg.galElRotRow = 2N - 1` of
`NewRKG`. -/
def galElRotRow (N : Nat) : Nat := 2 * N - 1

/-- The inner digit loop of `genswitchkey`: the list of prime levels at which
digit `i`'s skIn-injection loop writes.  It mirrors
`for j := 0; j < alpha; j++ { index = i*alpha + j; <write at index>;
if index == lenQ { break } }`: the level is recorded first, then the loop
stops if the level just written equals `lenQ`. -/
def injectLevelsAux (lenQ : Nat) : Nat → Nat → List Nat
  | _, 0 => []
  | start, j + 1 =>
    start :: (if start = lenQ then [] else injectLevelsAux lenQ (start + 1) j)

/-- Digit `i`'s written injection levels, starting at `i * alpha` with at most
`alpha` iterations. -/
def injectLevels (alpha lenQ i : Nat) : List Nat := injectLevelsAux lenQ (i * alpha) alpha

/-- One digit of `genswitchkey`: the freshly sampled noise `e` receives the
skIn injection `evakey[i].Coeffs[index][w] =
CRed(evakey[i].Coeffs[index][w] + polypool.Coeffs[index][w], Modulus[index])`
at every written level for coefficients `w < N`, then
`MulCoeffsMontgomeryAndSub(crp[i], sk_out, evakey[i])` and
`MForm(evakey[i], evakey[i])`. -/
def genDigit (ctx : BfvContext) (r rinv : Nat) (pool skOut : Poly) (i : Nat)
    (crpI e : Poly) : Poly :=
  let injected : Poly := fun l w =>
    if l ∈ injectLevels ctx.alpha ctx.lenQ i ∧ w < ctx.N then
      CRed (e l w + pool l w) (ctx.keysMod l)
    else e l w
  MForm r ctx.keysMod (MulCoeffsMontgomeryAndSub rinv ctx.keysMod crpI skOut injected)

/-- The routine `genswitchkey(sk_in, sk_out, crp)`.  It is given the instance
scratch buffer `rkg.polypool` explicitly (state passing); `noise` is the
sequence of fresh Gaussian samples, one drawn per digit
(`evakey[i] = GaussianSampler().SampleNTTNew()`).  Note that, exactly as in
the source, the injection reads the scratch buffer `pool` and the `sk_in`
argument is never read. -/
def genswitchkey (ctx : BfvContext) (r rinv : Nat) (pool sk_in sk_out : Poly)
    (crp : List Poly) (noise : List Poly) : List Poly :=
  (List.range ctx.beta).map fun i =>
    genDigit ctx r rinv pool sk_out i (crp.getD i zeroPoly) (noise.getD i zeroPoly)

/-- The entry point `GenShareRotLeft(sk, k, crp)`: mask `k` by `N/2 - 1`,
apply the column-left Galois automorphism, subtract `sk`, scale by every
key-switching auxiliary prime, convert out of fast representation, and call
`genswitchkey(rkg.polypool, sk, crp)`. -/
def GenShareRotLeft (ctx : BfvContext) (r rinv : Nat) (sk : Poly) (k : Nat)
    (crp noise : List Poly) : List Poly :=
  let k2 := k &&& (ctx.N / 2 - 1)
  let p0 := PermuteNTT ctx.N sk (galElRotColLeft ctx.N k2)
  let p1 := Sub ctx.keysMod p0 sk
  let p2 := ctx.pPrimes.foldl (fun p pj => MulScalar ctx.keysMod pj p) p1
  let pool := InvMForm rinv ctx.keysMod p2
  genswitchkey ctx r rinv pool pool sk crp noise

/-- The entry point `GenShareRotRight(sk, k, crp)`, identical to the left
variant but using the column-right Galois table. -/
def GenShareRotRight (ctx : BfvContext) (r rinv : Nat) (sk : Poly) (k : Nat)
    (crp noise : List Poly) : List Poly :=
  let k2 := k &&& (ctx.N / 2 - 1)
  let p0 := PermuteNTT ctx.N sk (galElRotColRight ctx.N k2)
  let p1 := Sub ctx.keysMod p0 sk
  let p2 := ctx.pPrimes.foldl (fun p pj => MulScalar ctx.keysMod pj p) p1
  let pool := InvMForm rinv ctx.keysMod p2
  genswitchkey ctx r rinv pool pool sk crp noise

/-- The entry point `GenShareRotRow(sk, crp)`, using the fixed row Galois
element `2N - 1`. -/
def GenShareRotRow (ctx : BfvContext) (r rinv : Nat) (sk : Poly)
    (crp noise : List Poly) : List Poly :=
  let p0 := PermuteNTT ctx.N sk (galElRotRow ctx.N)
  let p1 := Sub ctx.keysMod p0 sk
  let p2 := ctx.pPrimes.foldl (fun p pj => MulScalar ctx.keysMod pj p) p1
  let pool := InvMForm rinv ctx.keysMod p2
  genswitchkey ctx r rinv pool pool sk crp noise

/-- The inner party loop of `aggregate` for digit `i`:
`for j := 1; j < len(samples); j++ { AddNoMod(b, samples[j][i], b);
if j&7 == 7 { Reduce(b, b) } }`, written as a recursion over the remaining
parties with the running counter `j`. -/
def aggAddLoop (mods : Nat → Nat) (i : Nat) : Nat → Poly → List (List Poly) → Poly
  | _, acc, [] => acc
  | j, acc, s :: rest =>
    let a := AddNoMod acc (s.getD i zeroPoly)
    aggAddLoop mods i (j + 1) (if j % 8 = 7 then Reduce mods a else a) rest

/-- Digit `i` of the accumulated `b` side of `aggregate`: start from a copy
of `samples[0][i]`, run the deferred-reduction loop over the other parties,
and reduce once more at the end unless the last loop step already reduced
(`if (len(samples)-1)&7 != 7 { Reduce(b, b) }`). -/
def aggDigit (mods : Nat → Nat) (i : Nat) (samples : List (List Poly)) : Poly :=
  let b0 := (samples.getD 0 []).getD i zeroPoly
  let b1 := aggAddLoop mods i 1 b0 samples.tail
  if (samples.length - 1) % 8 ≠ 7 then Reduce mods b1 else b1

/-- The routine `aggregate(samples, crp)`: for every digit `i < beta`, pair
the accumulated `b` digit with `crp[i].CopyNew()` put into fast-multiplication
representation. -/
def aggregate (ctx : BfvContext) (r : Nat) (samples : List (List Poly))
    (crp : List Poly) : List (Poly × Poly) :=
  (List.range ctx.beta).map fun i =>
    (aggDigit ctx.keysMod i samples, MForm r ctx.keysMod (crp.getD i zeroPoly))

/-- The mutable accumulator state of the `RKG` instance: the two
column-rotation maps and the optional row key. -/
structure RKGState where
  rot_col_L : List (Nat × List (Poly × Poly))
  rot_col_R : List (Nat × List (Poly × Poly))
  rot_row : Option (List (Poly × Poly))

/-- Go map assignment `m[k] = v` on an association list: replace the binding
of `k` when present, append otherwise. -/
def mapInsert (k : Nat) (v : α) : List (Nat × α) → List (Nat × α)
  | [] => [(k, v)]
  | (k2, v2) :: t => if k2 = k then (k, v) :: t else (k2, v2) :: mapInsert k v t

/-- The entry point `AggregateRotColL(samples, k, crp)`: mask `k` by
`N/2 - 1` and store the aggregated key in the column-left map. -/
def AggregateRotColL (ctx : BfvContext) (r : Nat) (st : RKGState)
    (samples : List (List Poly)) (k : Nat) (crp : List Poly) : RKGState :=
  { st with
    rot_col_L := mapInsert (k &&& (ctx.N / 2 - 1)) (aggregate ctx r samples crp)
      st.rot_col_L }

/-- The entry point `AggregateRotColR(samples, k, crp)`. -/
def AggregateRotColR (ctx : BfvContext) (r : Nat) (st : RKGState)
    (samples : List (List Poly)) (k : Nat) (crp : List Poly) : RKGState :=
  { st with
    rot_col_R := mapInsert (k &&& (ctx.N / 2 - 1)) (aggregate ctx r samples crp)
      st.rot_col_R }

/-- The entry point `AggregateRotRow(samples, crp)`. -/
def AggregateRotRow (ctx : BfvContext) (r : Nat) (st : RKGState)
    (samples : List (List Poly)) (crp : List Poly) : RKGState :=
  { st with rot_row := some (aggregate ctx r samples crp) }

/-- The output key set (`bfv.RotationKeys`) as filled by `Finalize`. -/
structure RotationKeys where
  colLeft : List (Nat × List (Poly × Poly))
  colRight : List (Nat × List (Poly × Poly))
  row : Option (List (Poly × Poly))

/-- The routine `Finalize`: move every accumulated column-left and
column-right key and the row key (when present) into a fresh key set, and
delete them from the accumulator state. -/
def Finalize (st : RKGState) : RotationKeys × RKGState :=
  (⟨st.rot_col_L, st.rot_col_R, st.rot_row⟩, ⟨[], [], none⟩)

/-- Bounds-checked view of `aggregate`'s inner party loop: each slice access
`samples[j][i]` may abort with an index-out-of-range runtime failure,
modelled as `none`. -/
def aggAddLoopChecked (mods : Nat → Nat) (i : Nat) :
    Nat → Poly → List (List Poly) → Option Poly
  | _, acc, [] => some acc
  | j, acc, s :: rest => do
    let p ← s[i]?
    let a := AddNoMod acc p
    aggAddLoopChecked mods i (j + 1) (if j % 8 = 7 then Reduce mods a else a) rest

/-- Bounds-checked view of one `b` digit of `aggregate`: the accesses
`samples[0]` and `samples[0][i]` may abort. -/
def aggDigitChecked (mods : Nat → Nat) (i : Nat) (samples : List (List Poly)) :
    Option Poly := do
  let s0 ← samples[0]?
  let b0 ← s0[i]?
  let b1 ← aggAddLoopChecked mods i 1 b0 samples.tail
  pure (if (samples.length - 1) % 8 ≠ 7 then Reduce mods b1 else b1)

/-- Bounds-checked view of the digit loop of `aggregate`, iterated over the
digit indices; the access `crp[i]` may abort. -/
def aggregateCheckedAux (ctx : BfvContext) (r : Nat) (samples : List (List Poly))
    (crp : List Poly) : List Nat → Option (List (Poly × Poly))
  | [] => some []
  | i :: is => do
    let b ← aggDigitChecked ctx.keysMod i samples
    let c ← crp[i]?
    let rest ← aggregateCheckedAux ctx r samples crp is
    pure ((b, MForm r ctx.keysMod c) :: rest)

/-- Bounds-checked `aggregate(samples, crp)`: `none` exactly when one of the
slice accesses of the source routine would abort with an index-out-of-range
runtime failure. -/
def aggregateChecked (ctx : BfvContext) (r : Nat) (samples : List (List Poly))
    (crp : List Poly) : Option (List (Poly × Poly)) :=
  aggregateCheckedAux ctx r samples crp (List.range ctx.beta)

/-- Bounds-checked view of the digit loop of `genswitchkey`: the access
`crp[i]` may abort (the noise sampler always succeeds and the evakey and
scratch polynomials carry the full extended basis, so no other access can). -/
def genswitchkeyCheckedAux (ctx : BfvContext) (r rinv : Nat) (pool skOut : Poly)
    (crp noise : List Poly) : List Nat → Option (List Poly)
  | [] => some []
  | i :: is => do
    let c ← crp[i]?
    let rest ← genswitchkeyCheckedAux ctx r rinv pool skOut crp noise is
    pure (genDigit ctx r rinv pool skOut i c (noise.getD i zeroPoly) :: rest)

/-- Bounds-checked `genswitchkey(sk_in, sk_out, crp)`. -/
def genswitchkeyChecked (ctx : BfvContext) (r rinv : Nat) (pool sk_in sk_out : Poly)
    (crp noise : List Poly) : Option (List Poly) :=
  genswitchkeyCheckedAux ctx r rinv pool sk_out crp noise (List.range ctx.beta)

/-- A concrete parameter set with a ragged final digit: three chain primes,
`alpha = 2` auxiliary primes, hence `beta = 2` digits whose final digit
covers only the single remaining chain prime. -/
def ctxRagged : BfvContext where
  N := 1
  lenQ := 3
  keysMod := fun l => [5, 7, 11, 13, 17].getD l 1
  pPrimes := [13, 17]
  alpha := 2
  beta := 2

/-- A prepared difference polynomial for the ragged parameter set, nonzero
(value 4) exactly at prime level 3 = `lenQ`, the first auxiliary prime. -/
def poolRagged : Poly := fun l _ => [0, 0, 0, 4, 0].getD l 0

/-- A concrete one-digit parameter set. -/
def ctxOne : BfvContext where
  N := 1
  lenQ := 1
  keysMod := fun _ => 5
  pPrimes := [3]
  alpha := 1
  beta := 1

/-- A concrete one-digit parameter set with ring degree `N = 4`. -/
def ctxOne4 : BfvContext where
  N := 4
  lenQ := 1
  keysMod := fun _ => 5
  pPrimes := [3]
  alpha := 1
  beta := 1

/-- Helper for the table correctness proof: an iteratively built table with
step `x ↦ (x * g) &&& (2^m - 1)` computes `g^i mod 2^m`. -/
theorem iter_mask_pow (m g0 : Nat) (hm : 1 ≤ m) (f : Nat → Nat) (hf0 : f 0 = 1)
    (hfs : ∀ i, f (i + 1) = f i * g0 &&& (2 ^ m - 1)) :
    ∀ i, f i = g0 ^ i % 2 ^ m := by
  intro i
  induction i with
  | zero =>
    have h2 : (2 : Nat) ≤ 2 ^ m := by
      calc (2 : Nat) = 2 ^ 1 := by norm_num
      _ ≤ 2 ^ m := Nat.pow_le_pow_right (by norm_num) hm
    simp [hf0, Nat.mod_eq_of_lt (by omega : 1 < 2 ^ m)]
  | succ i ih =>
    rw [hfs i, ih, Nat.and_pow_two_sub_one_eq_mod, Nat.mod_mul_mod, pow_succ]

/-- Helper: Euler's theorem specialised to the generator `5` and the group
`(Z/2^m)`: `5^(2^m) ≡ 1 (mod 2^m)`. -/
theorem gen_pow_ord (m : Nat) : gen ^ 2 ^ m % 2 ^ m = 1 % 2 ^ m := by
  cases m with
  | zero => simp [gen]
  | succ k =>
    have hco : Nat.Coprime gen (2 ^ (k + 1)) :=
      Nat.Coprime.pow_right _ (by decide : Nat.Coprime gen 2)
    have htot : Nat.totient (2 ^ (k + 1)) = 2 ^ k := by
      rw [Nat.totient_prime_pow Nat.prime_two (Nat.succ_pos k)]
      simp
    have heuler : gen ^ 2 ^ k ≡ 1 [MOD 2 ^ (k + 1)] := by
      have := Nat.ModEq.pow_totient hco
      rwa [htot] at this
    have hsq : gen ^ 2 ^ (k + 1) ≡ 1 [MOD 2 ^ (k + 1)] := by
      have h2 : gen ^ 2 ^ (k + 1) = (gen ^ 2 ^ k) ^ 2 := by
        rw [← pow_mul, pow_succ]
      rw [h2]
      calc (gen ^ 2 ^ k) ^ 2 ≡ 1 ^ 2 [MOD 2 ^ (k + 1)] := heuler.pow 2
      _ = 1 := one_pow 2
    exact hsq

/-- C4: after `NewRKG` with ring degree `N` a power of two and generator
`g = 5`, for every `i < N/2` the tables satisfy `ColLeft[i] = g^i mod 2N` and
`ColRight[i] = genInv^i mod 2N`, where `genInv = g^(2N-1) mod 2N` is the
multiplicative inverse of `g` modulo `2N`, and
`ColLeft[i] * ColRight[i] ≡ 1 (mod 2N)`; the mask `2N-1` in the iterative
construction realizes exact reduction modulo `2N`. -/
theorem c4_galois_tables (N k i : Nat) (hN : N = 2 ^ k) (hi : i < N / 2) :
    galElRotColLeft N i = gen ^ i % (2 * N) ∧
    galElRotColRight N i = genInv N ^ i % (2 * N) ∧
    genInv N = gen ^ (2 * N - 1) % (2 * N) ∧
    genInv N * gen % (2 * N) = 1 ∧
    galElRotColLeft N i * galElRotColRight N i % (2 * N) = 1 := by
  have hk : 1 ≤ k := by
    by_contra h
    have hk0 : k = 0 := by omega
    rw [hN, hk0] at hi
    simp at hi
  have h2N : 2 * N = 2 ^ (k + 1) := by rw [hN, pow_succ, mul_comm]
  have hm1 : 1 < 2 * N := by
    have : (2 : Nat) ≤ 2 ^ (k + 1) := by
      calc (2 : Nat) = 2 ^ 1 := by norm_num
      _ ≤ 2 ^ (k + 1) := Nat.pow_le_pow_right (by norm_num) (by omega)
    omega
  have hIdx : gen ^ (2 * N) % (2 * N) = 1 := by
    rw [h2N, gen_pow_ord (k + 1)]
    exact Nat.mod_eq_of_lt (by omega)
  have hL : ∀ j, galElRotColLeft N j = gen ^ j % (2 * N) := by
    intro j
    rw [h2N]
    refine iter_mask_pow (k + 1) gen (by omega) _ rfl (fun j => ?_) j
    rw [show galElRotColLeft N (j + 1) = galElRotColLeft N j * gen &&& (2 * N - 1) from rfl,
      h2N]
  have hR : ∀ j, galElRotColRight N j = genInv N ^ j % (2 * N) := by
    intro j
    rw [h2N]
    refine iter_mask_pow (k + 1) (genInv N) (by omega) _ rfl (fun j => ?_) j
    rw [show galElRotColRight N (j + 1) = galElRotColRight N j * genInv N &&& (2 * N - 1)
        from rfl, h2N]
  have hInv : genInv N * gen % (2 * N) = 1 := by
    show gen ^ (2 * N - 1) % (2 * N) * gen % (2 * N) = 1
    rw [Nat.mod_mul_mod, ← pow_succ, show 2 * N - 1 + 1 = 2 * N by omega]
    exact hIdx
  have hGenInvPow : genInv N ^ i % (2 * N) = gen ^ ((2 * N - 1) * i) % (2 * N) := by
    show (gen ^ (2 * N - 1) % (2 * N)) ^ i % (2 * N) = gen ^ ((2 * N - 1) * i) % (2 * N)
    rw [← Nat.pow_mod, ← pow_mul]
  have harith : i + (2 * N - 1) * i = 2 * N * i := by
    have h1 : (2 * N - 1) * i = 2 * N * i - i := by rw [Nat.sub_one_mul]
    have h2 : i ≤ 2 * N * i := Nat.le_mul_of_pos_left i (by omega)
    omega
  have hprod : gen ^ i * genInv N ^ i % (2 * N) = 1 := by
    rw [Nat.mul_mod, hGenInvPow, ← Nat.mul_mod, ← pow_add, harith, pow_mul, Nat.pow_mod,
      hIdx, one_pow]
    exact Nat.mod_eq_of_lt hm1
  exact ⟨hL i, hR i, rfl, hInv, by rw [hL i, hR i, ← Nat.mul_mod]; exact hprod⟩

/-- Witness for C4 at the concrete ring degree `N = 8`, `i = 3`. -/
theorem c4_galois_tables_witness :
    (8 : Nat) = 2 ^ 3 ∧ 3 < 8 / 2 ∧
    (galElRotColLeft 8 3 = gen ^ 3 % (2 * 8) ∧
     galElRotColRight 8 3 = genInv 8 ^ 3 % (2 * 8) ∧
     genInv 8 = gen ^ (2 * 8 - 1) % (2 * 8) ∧
     genInv 8 * gen % (2 * 8) = 1 ∧
     galElRotColLeft 8 3 * galElRotColRight 8 3 % (2 * 8) = 1) :=
  ⟨by decide, by decide, c4_galois_tables 8 3 3 (by decide) (by decide)⟩

/-- C9: the output of `genswitchkey` is independent of its `sk_in` parameter:
with the instance scratch buffer, `sk_out`, `crp` and the sampler draws held
fixed, any two values of the `sk_in` argument yield identical outputs,
because the injection step reads the instance's scratch polynomial
(`rkg.polypool`) rather than the `sk_in` argument. -/
theorem c9_skin_independent (ctx : BfvContext) (r rinv : Nat) (pool skOut : Poly)
    (crp noise : List Poly) (p q : Poly) :
    genswitchkey ctx r rinv pool p skOut crp noise =
      genswitchkey ctx r rinv pool q skOut crp noise := rfl

/-- C2 is violated by the code: with `alpha = 2` and a three-prime modulus
chain (`lenQ = 3`), the skIn-injection loop of digit 1 writes at the prime
levels `[2, 3]` — including level `3 = lenQ`, because the
`if index == len(ContextQ.Modulus) { break }` check runs only after the
coefficient write — so the final digit overruns the chain by one prime. -/
theorem c2_overrun_eval :
    injectLevels ctxRagged.alpha ctxRagged.lenQ 1 = [2, 3] ∧
    ctxRagged.lenQ ∈ injectLevels ctxRagged.alpha ctxRagged.lenQ 1 := by decide

/-- C1 is violated by the code on the same slip: at the ragged parameter set,
with zero noise, zero CRP and zero `skOut`, digit 1 of `genswitchkey` carries
the value 4 of the prepared difference polynomial at prime level
`lenQ = 3` — a level outside the chain primes covered by the digit, where the
claimed digit factor is zero and the digit should therefore be 0. -/
theorem c1_overrun_eval :
    ((genswitchkey ctxRagged 1 1 poolRagged zeroPoly zeroPoly
        [zeroPoly, zeroPoly] [zeroPoly, zeroPoly]).getD 1 zeroPoly)
      ctxRagged.lenQ 0 = 4 := by decide

/-- C6: `Finalize` returns exactly the accumulated column-left keys,
column-right keys and row key (present if and only if a row aggregation
occurred), clears the accumulator state, and an immediately repeated
`Finalize` returns a key set with no column or row keys; a fresh aggregation
before `Finalize` is drained into the output. -/
theorem c6_finalize (st : RKGState) (ctx : BfvContext) (r : Nat)
    (samples : List (List Poly)) (k : Nat) (crp : List Poly) :
    (Finalize st).1.colLeft = st.rot_col_L ∧
    (Finalize st).1.colRight = st.rot_col_R ∧
    (Finalize st).1.row = st.rot_row ∧
    (Finalize st).2 = ⟨[], [], none⟩ ∧
    (Finalize (Finalize st).2).1 = ⟨[], [], none⟩ ∧
    (Finalize (AggregateRotColL ctx r st samples k crp)).1.colLeft =
      mapInsert (k &&& (ctx.N / 2 - 1)) (aggregate ctx r samples crp) st.rot_col_L ∧
    (Finalize (AggregateRotRow ctx r st samples crp)).1.row =
      some (aggregate ctx r samples crp) :=
  ⟨rfl, rfl, rfl, rfl, rfl, rfl, rfl⟩

/-- C5: with ring degree `N` a power of two (so that the mask `k & (N/2 - 1)`
is exact reduction modulo `N/2`), share generation and aggregation keying for
rotation amounts `k` and `k + N/2` (same secret share, CRP and noise draw)
produce identical results. -/
theorem c5_mask_equiv (ctx : BfvContext) (m : Nat) (hN : ctx.N = 2 ^ (m + 1))
    (r rinv : Nat) (sk : Poly) (k : Nat) (crp noise : List Poly)
    (st : RKGState) (samples : List (List Poly)) :
    k &&& (ctx.N / 2 - 1) = k % (ctx.N / 2) ∧
    GenShareRotLeft ctx r rinv sk k crp noise =
      GenShareRotLeft ctx r rinv sk (k + ctx.N / 2) crp noise ∧
    GenShareRotRight ctx r rinv sk k crp noise =
      GenShareRotRight ctx r rinv sk (k + ctx.N / 2) crp noise ∧
    AggregateRotColL ctx r st samples k crp =
      AggregateRotColL ctx r st samples (k + ctx.N / 2) crp ∧
    AggregateRotColR ctx r st samples k crp =
      AggregateRotColR ctx r st samples (k + ctx.N / 2) crp := by
  have hhalf : ctx.N / 2 = 2 ^ m := by
    rw [hN, pow_succ]
    omega
  have hmask : k &&& (ctx.N / 2 - 1) = (k + ctx.N / 2) &&& (ctx.N / 2 - 1) := by
    rw [hhalf, Nat.and_pow_two_sub_one_eq_mod, Nat.and_pow_two_sub_one_eq_mod,
      Nat.add_mod_right]
  refine ⟨by rw [hhalf, Nat.and_pow_two_sub_one_eq_mod], ?_, ?_, ?_, ?_⟩
  · unfold GenShareRotLeft
    rw [hmask]
  · unfold GenShareRotRight
    rw [hmask]
  · unfold AggregateRotColL
    rw [hmask]
  · unfold AggregateRotColR
    rw [hmask]

/-- Witness for C5 at the concrete ring degree `N = 4`, `k = 1`. -/
theorem c5_mask_equiv_witness :
    ctxOne4.N = 2 ^ (1 + 1) ∧
    GenShareRotLeft ctxOne4 1 1 zeroPoly 1 [zeroPoly] [zeroPoly] =
      GenShareRotLeft ctxOne4 1 1 zeroPoly (1 + ctxOne4.N / 2) [zeroPoly] [zeroPoly] :=
  ⟨by decide,
    (c5_mask_equiv ctxOne4 1 (by decide) 1 1 zeroPoly 1 [zeroPoly] [zeroPoly]
      ⟨[], [], none⟩ [[zeroPoly]]).2.1⟩

/-- Helper: indexing the digit-indexed output builders. -/
theorem range_map_getD {α : Type} (n i : Nat) (hi : i < n) (f : Nat → α) (d : α) :
    ((List.range n).map f).getD i d = f i := by
  rw [List.getD_eq_getElem?_getD, List.getElem?_map, List.getElem?_range hi]
  rfl

/-- Helper: coefficient-wise, the deferred-reduction party loop agrees with
the plain sum modulo the level's prime. -/
theorem aggAddLoop_mod (mods : Nat → Nat) (i l w : Nat) :
    ∀ (rest : List (List Poly)) (j : Nat) (acc : Poly),
      aggAddLoop mods i j acc rest l w % mods l =
        (acc l w + (rest.map fun s => s.getD i zeroPoly l w).sum) % mods l := by
  intro rest
  induction rest with
  | nil => intro j acc; simp [aggAddLoop]
  | cons s rest ih =>
    intro j acc
    show aggAddLoop mods i (j + 1)
        (if j % 8 = 7 then Reduce mods (AddNoMod acc (s.getD i zeroPoly))
         else AddNoMod acc (s.getD i zeroPoly)) rest l w % mods l = _
    by_cases h : j % 8 = 7
    · rw [if_pos h, ih]
      show ((acc l w + s.getD i zeroPoly l w) % mods l +
          (rest.map fun s => s.getD i zeroPoly l w).sum) % mods l = _
      rw [Nat.mod_add_mod]
      simp [Nat.add_assoc]
    · rw [if_neg h, ih]
      show (acc l w + s.getD i zeroPoly l w +
          (rest.map fun s => s.getD i zeroPoly l w).sum) % mods l = _
      simp [Nat.add_assoc]

/-- Helper: when the last party processed by the loop hits the
`j&7 == 7` checkpoint, the loop's result is already fully reduced. -/
theorem aggAddLoop_lt (mods : Nat → Nat) (i l w : Nat) (hm : 0 < mods l) :
    ∀ (rest : List (List Poly)) (j : Nat) (acc : Poly), rest ≠ [] →
      (j + rest.length - 1) % 8 = 7 →
      aggAddLoop mods i j acc rest l w < mods l := by
  intro rest
  induction rest with
  | nil => intro j acc h _; exact absurd rfl h
  | cons s rest ih =>
    intro j acc _ h7
    cases rest with
    | nil =>
      have hj : j % 8 = 7 := by simpa using h7
      show aggAddLoop mods i (j + 1)
          (if j % 8 = 7 then Reduce mods (AddNoMod acc (s.getD i zeroPoly))
           else AddNoMod acc (s.getD i zeroPoly)) [] l w < mods l
      rw [if_pos hj]
      exact Nat.mod_lt _ hm
    | cons t ts =>
      have h7b : (j + 1 + (t :: ts).length - 1) % 8 = 7 := by
        have heq : j + 1 + (t :: ts).length - 1 = j + (s :: t :: ts).length - 1 := by
          simp [List.length_cons]
          omega
        rw [heq]
        exact h7
      exact ih (j + 1) _ (by simp) h7b

/-- Helper: coefficient-wise value of one accumulated digit of `aggregate`:
the fully-reduced modular sum over all parties. -/
theorem aggDigit_eq (mods : Nat → Nat) (i l w : Nat) (hm : 0 < mods l)
    (samples : List (List Poly)) (hs : 0 < samples.length) :
    aggDigit mods i samples l w =
      (samples.map fun s => s.getD i zeroPoly l w).sum % mods l := by
  obtain ⟨s0, rest, rfl⟩ : ∃ a t, samples = a :: t := by
    cases samples with
    | nil => simp at hs
    | cons a t => exact ⟨a, t, rfl⟩
  show (if ((s0 :: rest).length - 1) % 8 ≠ 7 then
      Reduce mods (aggAddLoop mods i 1 (s0.getD i zeroPoly) rest)
    else aggAddLoop mods i 1 (s0.getD i zeroPoly) rest) l w = _
  have hlen : (s0 :: rest).length - 1 = rest.length := by simp
  by_cases h : rest.length % 8 = 7
  · have hcond : ¬ ((s0 :: rest).length - 1) % 8 ≠ 7 := by
      rw [hlen]
      simpa using h
    rw [if_neg hcond]
    have hne : rest ≠ [] := by
      intro he
      rw [he] at h
      simp at h
    have h1 : (1 + rest.length - 1) % 8 = 7 := by
      have : 1 + rest.length - 1 = rest.length := by omega
      rw [this]
      exact h
    have hlt := aggAddLoop_lt mods i l w hm rest 1 (s0.getD i zeroPoly) hne h1
    have hmod := aggAddLoop_mod mods i l w rest 1 (s0.getD i zeroPoly)
    rw [← Nat.mod_eq_of_lt hlt, hmod]
    simp
  · have hcond : ((s0 :: rest).length - 1) % 8 ≠ 7 := by
      rw [hlen]
      exact h
    rw [if_pos hcond]
    show aggAddLoop mods i 1 (s0.getD i zeroPoly) rest l w % mods l = _
    rw [aggAddLoop_mod]
    simp

/-- Helper: the naive reduce-after-every-addition fold equals the modular
sum, once at least one addition happens. -/
theorem foldl_mod_sum (m : Nat) :
    ∀ (t : List Nat) (a : Nat), t ≠ [] →
      t.foldl (fun x y => (x + y) % m) a = (a + t.sum) % m := by
  intro t
  induction t with
  | nil => intro a h; exact absurd rfl h
  | cons y ts ih =>
    intro a _
    cases ts with
    | nil => simp
    | cons z zs =>
      rw [List.foldl_cons, ih _ (by simp), Nat.mod_add_mod]
      simp [Nat.add_assoc]

/-- C3: for a non-empty collection of per-party share vectors of length
`Beta` and a CRP of length `Beta`, each accumulated digit `b[i]` of
`aggregate` is fully reduced and equals the fully-reduced modular sum of
`samples[0][i], ..., samples[n-1][i]`; the deferred-reduction loop is
equivalent to the naive reduce-after-every-addition sum (on reduced ring
elements); and `a[i]` is `crp[i]` in fast-multiplication representation. -/
theorem c3_aggregate (ctx : BfvContext) (r : Nat) (samples : List (List Poly))
    (crp : List Poly) (hs : 0 < samples.length)
    (hlen : ∀ s ∈ samples, s.length = ctx.beta) (hcrp : crp.length = ctx.beta)
    (i : Nat) (hi : i < ctx.beta) (l w : Nat) (hm : 0 < ctx.keysMod l)
    (hred : ∀ s ∈ samples, s.getD i zeroPoly l w < ctx.keysMod l) :
    ((aggregate ctx r samples crp).getD i (zeroPoly, zeroPoly)).1 l w =
      (samples.map fun s => s.getD i zeroPoly l w).sum % ctx.keysMod l ∧
    ((aggregate ctx r samples crp).getD i (zeroPoly, zeroPoly)).1 l w <
      ctx.keysMod l ∧
    ((aggregate ctx r samples crp).getD i (zeroPoly, zeroPoly)).1 l w =
      (samples.tail.map fun s => s.getD i zeroPoly l w).foldl
        (fun a y => (a + y) % ctx.keysMod l)
        ((samples.getD 0 []).getD i zeroPoly l w) ∧
    ((aggregate ctx r samples crp).getD i (zeroPoly, zeroPoly)).2 =
      MForm r ctx.keysMod (crp.getD i zeroPoly) := by
  have hagg : (aggregate ctx r samples crp).getD i (zeroPoly, zeroPoly) =
      (aggDigit ctx.keysMod i samples, MForm r ctx.keysMod (crp.getD i zeroPoly)) :=
    range_map_getD ctx.beta i hi _ _
  rw [hagg]
  dsimp only
  refine ⟨aggDigit_eq ctx.keysMod i l w hm samples hs, ?_, ?_, rfl⟩
  · rw [aggDigit_eq ctx.keysMod i l w hm samples hs]
    exact Nat.mod_lt _ hm
  · rw [aggDigit_eq ctx.keysMod i l w hm samples hs]
    obtain ⟨s0, rest, rfl⟩ : ∃ a t, samples = a :: t := by
      cases samples with
      | nil => simp at hs
      | cons a t => exact ⟨a, t, rfl⟩
    cases rest with
    | nil =>
      have hb : s0.getD i zeroPoly l w < ctx.keysMod l := hred s0 (by simp)
      show (s0.getD i zeroPoly l w + 0) % ctx.keysMod l = s0.getD i zeroPoly l w
      rw [Nat.add_zero]
      exact Nat.mod_eq_of_lt hb
    | cons s1 rest1 =>
      rw [show (s0 :: s1 :: rest1).tail = s1 :: rest1 from rfl,
        foldl_mod_sum (ctx.keysMod l) _ _ (by simp)]
      simp [Nat.add_assoc]

/-- Witness for C3 at a concrete two-party aggregation. -/
theorem c3_aggregate_witness :
    (0 : Nat) < ([[fun _ _ => 3], [fun _ _ => 4]] : List (List Poly)).length ∧
    ((aggregate ctxOne 1 [[fun _ _ => 3], [fun _ _ => 4]] [zeroPoly]).getD 0
        (zeroPoly, zeroPoly)).1 0 0 =
      (([[fun _ _ => 3], [fun _ _ => 4]] : List (List Poly)).map
        fun s => s.getD 0 zeroPoly 0 0).sum % ctxOne.keysMod 0 :=
  ⟨by decide,
    (c3_aggregate ctxOne 1 [[fun _ _ => 3], [fun _ _ => 4]] [zeroPoly] (by decide)
      (by decide) (by decide) 0 (by decide) 0 0 (by decide) (by decide)).1⟩

/-- Helper: conditional reduction of a value below `2q` lands below `q`. -/
theorem cred_lt (a q : Nat) (h : a < 2 * q) : CRed a q < q := by
  unfold CRed
  split <;> omega

/-- Helper: `e ↦ CRed(e + p, q)` is injective on reduced values. -/
theorem cred_inj (q p e1 e2 : Nat) (hp : p < q) (h1 : e1 < q) (h2 : e2 < q)
    (heq : CRed (e1 + p) q = CRed (e2 + p) q) : e1 = e2 := by
  unfold CRed at heq
  split at heq <;> split at heq <;> omega

/-- Helper: multiplication by an invertible Montgomery constant is injective
modulo `q` on reduced values. -/
theorem mul_right_cancel_mod (q r rinv t1 t2 : Nat) (hq : 1 < q)
    (hr : r * rinv % q = 1) (h1 : t1 < q) (h2 : t2 < q)
    (heq : t1 * r % q = t2 * r % q) : t1 = t2 := by
  have hrr : r * rinv ≡ 1 [MOD q] := by
    unfold Nat.ModEq
    rw [hr, Nat.mod_eq_of_lt hq]
  have hmt : t1 * r ≡ t2 * r [MOD q] := heq
  have h3 : t1 * (r * rinv) ≡ t2 * (r * rinv) [MOD q] := by
    have := hmt.mul_right rinv
    calc t1 * (r * rinv) = t1 * r * rinv := by ring
    _ ≡ t2 * r * rinv [MOD q] := this
    _ = t2 * (r * rinv) := by ring
  have h4 : t1 ≡ t2 [MOD q] := by
    calc t1 = t1 * 1 := by ring
    _ ≡ t1 * (r * rinv) [MOD q] := (hrr.symm).mul_left t1
    _ ≡ t2 * (r * rinv) [MOD q] := h3
    _ ≡ t2 * 1 [MOD q] := hrr.mul_left t2
    _ = t2 := by ring
  have h5 : t1 % q = t2 % q := h4
  rwa [Nat.mod_eq_of_lt h1, Nat.mod_eq_of_lt h2] at h5

/-- Helper: the digit's affine tail (add the multiply-and-subtract constant,
reduce, convert to fast representation) is injective on reduced values. -/
theorem affine_mod_inj (q r rinv K u1 u2 : Nat) (hq : 1 < q)
    (hr : r * rinv % q = 1) (h1 : u1 < q) (h2 : u2 < q)
    (heq : (u1 % q + K) % q * r % q = (u2 % q + K) % q * r % q) : u1 = u2 := by
  rw [Nat.mod_eq_of_lt h1, Nat.mod_eq_of_lt h2] at heq
  have ht1 : (u1 + K) % q < q := Nat.mod_lt _ (by omega)
  have ht2 : (u2 + K) % q < q := Nat.mod_lt _ (by omega)
  have hT : (u1 + K) % q = (u2 + K) % q :=
    mul_right_cancel_mod q r rinv _ _ hq hr ht1 ht2 heq
  have hMod : u1 + K ≡ u2 + K [MOD q] := hT
  have hcancel := hMod.add_right_cancel' K
  have h5 : u1 % q = u2 % q := hcancel
  rwa [Nat.mod_eq_of_lt h1, Nat.mod_eq_of_lt h2] at h5

/-- Helper: the coefficient-level form of one `genswitchkey` digit. -/
theorem genDigit_apply (ctx : BfvContext) (r rinv : Nat) (pool skOut : Poly)
    (i : Nat) (crpI e : Poly) (l w : Nat) :
    genDigit ctx r rinv pool skOut i crpI e l w =
      ((if l ∈ injectLevels ctx.alpha ctx.lenQ i ∧ w < ctx.N then
          CRed (e l w + pool l w) (ctx.keysMod l)
        else e l w) % ctx.keysMod l +
        (ctx.keysMod l - crpI l w * skOut l w * rinv % ctx.keysMod l)) %
        ctx.keysMod l * r % ctx.keysMod l := rfl

/-- C8: share generation is never deterministic in its explicit inputs: two
invocations of `genswitchkey` with identical secret inputs and CRP but
distinct per-digit sampler draws (reduced ring elements differing at a used
coordinate, with an invertible Montgomery constant) yield different
outputs. -/
theorem c8_fresh_noise (ctx : BfvContext) (r rinv : Nat) (pool skIn skOut : Poly)
    (crp noise1 noise2 : List Poly) (i l w : Nat)
    (hi : i < ctx.beta) (hw : w < ctx.N) (hq : 1 < ctx.keysMod l)
    (hr : r * rinv % ctx.keysMod l = 1)
    (hpool : pool l w < ctx.keysMod l)
    (h1 : noise1.getD i zeroPoly l w < ctx.keysMod l)
    (h2 : noise2.getD i zeroPoly l w < ctx.keysMod l)
    (hne : noise1.getD i zeroPoly l w ≠ noise2.getD i zeroPoly l w) :
    (genswitchkey ctx r rinv pool skIn skOut crp noise1).getD i zeroPoly l w ≠
      (genswitchkey ctx r rinv pool skIn skOut crp noise2).getD i zeroPoly l w := by
  intro heq
  rw [show (genswitchkey ctx r rinv pool skIn skOut crp noise1).getD i zeroPoly =
        genDigit ctx r rinv pool skOut i (crp.getD i zeroPoly) (noise1.getD i zeroPoly)
      from range_map_getD ctx.beta i hi _ _,
    show (genswitchkey ctx r rinv pool skIn skOut crp noise2).getD i zeroPoly =
        genDigit ctx r rinv pool skOut i (crp.getD i zeroPoly) (noise2.getD i zeroPoly)
      from range_map_getD ctx.beta i hi _ _,
    genDigit_apply, genDigit_apply] at heq
  by_cases hin : l ∈ injectLevels ctx.alpha ctx.lenQ i ∧ w < ctx.N
  · rw [if_pos hin, if_pos hin] at heq
    have hcred := affine_mod_inj (ctx.keysMod l) r rinv _ _ _ hq hr
      (cred_lt _ _ (by omega)) (cred_lt _ _ (by omega)) heq
    exact hne (cred_inj (ctx.keysMod l) (pool l w) _ _ hpool h1 h2 hcred)
  · rw [if_neg hin, if_neg hin] at heq
    exact hne (affine_mod_inj (ctx.keysMod l) r rinv _ _ _ hq hr h1 h2 heq)

/-- Witness for C8 at a concrete one-digit instance with two distinct noise
draws. -/
theorem c8_fresh_noise_witness :
    ([(fun _ _ => 0 : Poly)].getD 0 zeroPoly 0 0 ≠
        [(fun _ _ => 1 : Poly)].getD 0 zeroPoly 0 0) ∧
    (genswitchkey ctxOne 1 1 zeroPoly zeroPoly zeroPoly [zeroPoly]
        [fun _ _ => 0]).getD 0 zeroPoly 0 0 ≠
      (genswitchkey ctxOne 1 1 zeroPoly zeroPoly zeroPoly [zeroPoly]
        [fun _ _ => 1]).getD 0 zeroPoly 0 0 :=
  ⟨by decide,
    c8_fresh_noise ctxOne 1 1 zeroPoly zeroPoly zeroPoly [zeroPoly]
      [fun _ _ => 0] [fun _ _ => 1] 0 0 0 (by decide) (by decide) (by decide)
      (by decide) (by decide) (by decide) (by decide) (by decide)⟩

/-- Helper: a failing digit or CRP access anywhere in the digit loop aborts
the whole of `aggregate`. -/
theorem aggregateCheckedAux_none (ctx : BfvContext) (r : Nat)
    (samples : List (List Poly)) (crp : List Poly) :
    ∀ (is : List Nat) (i : Nat), i ∈ is →
      (aggDigitChecked ctx.keysMod i samples = none ∨ crp[i]? = none) →
      aggregateCheckedAux ctx r samples crp is = none := by
  intro is
  induction is with
  | nil => intro i h _; simp at h
  | cons j js ih =>
    intro i hmem hfail
    rcases List.mem_cons.mp hmem with h | h
    · subst h
      rcases hfail with hf | hf
      · simp [aggregateCheckedAux, hf]
      · cases hd : aggDigitChecked ctx.keysMod i samples <;>
          simp [aggregateCheckedAux, hd, hf]
    · have hrest := ih i h hfail
      cases hd : aggDigitChecked ctx.keysMod j samples <;>
        cases hc : crp[j]? <;>
          simp [aggregateCheckedAux, hd, hc, hrest]

/-- Helper: a failing `samples[j][i]` access in the party loop aborts the
digit. -/
theorem aggAddLoopChecked_none (mods : Nat → Nat) (i : Nat) :
    ∀ (rest : List (List Poly)) (j : Nat) (acc : Poly) (s : List Poly),
      s ∈ rest → s[i]? = none →
      aggAddLoopChecked mods i j acc rest = none := by
  intro rest
  induction rest with
  | nil => intro j acc s h _; simp at h
  | cons s0 rest ih =>
    intro j acc s hmem hfail
    rcases List.mem_cons.mp hmem with h | h
    · subst h
      simp [aggAddLoopChecked, hfail]
    · cases hs0 : s0[i]? with
      | none => simp [aggAddLoopChecked, hs0]
      | some p =>
        simp only [aggAddLoopChecked, hs0, Option.some_bind]
        exact ih _ _ s h hfail

/-- Helper: an empty share collection aborts the digit at the `samples[0]`
access. -/
theorem aggDigitChecked_none_empty (mods : Nat → Nat) (i : Nat) :
    aggDigitChecked mods i [] = none := rfl

/-- Helper: a party vector too short for digit `i` aborts the digit. -/
theorem aggDigitChecked_none_short (mods : Nat → Nat) (i : Nat)
    (samples : List (List Poly)) (s : List Poly) (hmem : s ∈ samples)
    (hshort : s.length ≤ i) : aggDigitChecked mods i samples = none := by
  have hfail : s[i]? = none := List.getElem?_eq_none hshort
  obtain ⟨s0, rest, rfl⟩ : ∃ a t, samples = a :: t := by
    cases samples with
    | nil => simp at hmem
    | cons a t => exact ⟨a, t, rfl⟩
  rcases List.mem_cons.mp hmem with h | h
  · subst h
    simp [aggDigitChecked, hfail]
  · cases hs0 : s0[i]? with
    | none => simp [aggDigitChecked, hs0]
    | some b0 =>
      have hloop := aggAddLoopChecked_none mods i rest 1 b0 s h hfail
      simp [aggDigitChecked, hs0, hloop]

/-- Helper: a failing `crp[i]` access anywhere in the digit loop aborts the
whole of `genswitchkey`. -/
theorem genswitchkeyCheckedAux_none (ctx : BfvContext) (r rinv : Nat)
    (pool skOut : Poly) (crp noise : List Poly) :
    ∀ (is : List Nat) (i : Nat), i ∈ is → crp[i]? = none →
      genswitchkeyCheckedAux ctx r rinv pool skOut crp noise is = none := by
  intro is
  induction is with
  | nil => intro i h _; simp at h
  | cons j js ih =>
    intro i hmem hfail
    rcases List.mem_cons.mp hmem with h | h
    · subst h
      simp [genswitchkeyCheckedAux, hfail]
    · have hrest := ih i h hfail
      cases hc : crp[j]? <;>
        simp [genswitchkeyCheckedAux, hc, hrest]

/-- C7 is violated by the code: a per-party share vector and a CRP that are
both longer than `Beta` are not rejected — `aggregate` reads only the first
`Beta` entries and happily returns a key. -/
theorem c7_counterexample :
    ([zeroPoly, zeroPoly] : List Poly).length ≠ ctxOne.beta ∧
    (aggregateChecked ctxOne 1 [[zeroPoly, zeroPoly]] [zeroPoly, zeroPoly]).isSome
      = true := by
  constructor
  · decide
  · rfl

/-- C7 as amended: an empty share collection, a party share vector too short
for a digit index below `Beta`, or a CRP shorter than `Beta`, make
aggregation (and, for the CRP, share generation) abort with an
index-out-of-range failure instead of returning a key; inputs longer than
`Beta` are not detected. -/
theorem c7_preconditions (ctx : BfvContext) (r rinv : Nat) (hbeta : 0 < ctx.beta) :
    (∀ crp, aggregateChecked ctx r [] crp = none) ∧
    (∀ samples crp, crp.length < ctx.beta →
      aggregateChecked ctx r samples crp = none) ∧
    (∀ samples crp (s : List Poly), s ∈ samples → s.length < ctx.beta →
      aggregateChecked ctx r samples crp = none) ∧
    (∀ (pool skIn skOut : Poly) (crp noise : List Poly), crp.length < ctx.beta →
      genswitchkeyChecked ctx r rinv pool skIn skOut crp noise = none) := by
  refine ⟨?_, ?_, ?_, ?_⟩
  · intro crp
    exact aggregateCheckedAux_none ctx r [] crp _ 0 (List.mem_range.mpr hbeta)
      (Or.inl (aggDigitChecked_none_empty _ _))
  · intro samples crp hlt
    exact aggregateCheckedAux_none ctx r samples crp _ crp.length
      (List.mem_range.mpr hlt) (Or.inr (List.getElem?_eq_none (le_refl _)))
  · intro samples crp s hmem hlt
    exact aggregateCheckedAux_none ctx r samples crp _ s.length
      (List.mem_range.mpr hlt)
      (Or.inl (aggDigitChecked_none_short ctx.keysMod s.length samples s hmem
        (le_refl _)))
  · intro pool skIn skOut crp noise hlt
    exact genswitchkeyCheckedAux_none ctx r rinv pool skOut crp noise _ crp.length
      (List.mem_range.mpr hlt) (List.getElem?_eq_none (le_refl _))

/-- Witness for the amended C7: the empty share collection is rejected at the
concrete one-digit parameter set. -/
theorem c7_preconditions_witness :
    0 < ctxOne.beta ∧ aggregateChecked ctxOne 1 [] [zeroPoly] = none :=
  ⟨by decide, (c7_preconditions ctxOne 1 1 (by decide)).1 [zeroPoly]⟩

end RotKeyGen
